import Mathlib

/-!
Verification development for the PDF sales-ledger converter (`src/app.py`).

Strings are modelled as `List Char`; Python floats are modelled as exact
rationals (`ℚ`) — every numeric literal appearing in the claims is exactly
representable, and the pipeline performs no float arithmetic other than
parsing, comparison and the vertical-bucket rounding, all of which are
faithfully mirrored on `ℚ`.  All character-class tests (`str.strip`,
regex `\s`, `[a-zA-Z]`, `str.upper`/`lower`) are modelled at ASCII scope,
which covers every string the program manipulates.
-/

/-- ASCII whitespace, the character class stripped by Python `str.strip()`
and matched by the regex class `\s` (ASCII scope). -/
def pyWs (c : Char) : Bool :=
  c = ' ' || c = '\t' || c = '\n' || c = '\x0d' || c = '\x0b' || c = '\x0c'

/-- ASCII decimal digit. -/
def isAsciiDigit (c : Char) : Bool := '0' ≤ c && c ≤ '9'

/-- ASCII letter, the regex class `[a-zA-Z]`. -/
def isAsciiAlpha (c : Char) : Bool :=
  ('a' ≤ c && c ≤ 'z') || ('A' ≤ c && c ≤ 'Z')

/-- Python `s.strip()`: remove leading and trailing whitespace. -/
def pyStrip (l : List Char) : List Char :=
  ((l.dropWhile pyWs).reverse.dropWhile pyWs).reverse

/-- Python `s.rstrip(' -')`: remove trailing characters drawn from
the set consisting of a space and a hyphen. -/
def rstripSpaceDash (l : List Char) : List Char :=
  (l.reverse.dropWhile (fun c => c = ' ' || c = '-')).reverse

/-- The helper `clean_number_str` (src/app.py:97-99):
`s.replace(',', '').replace('-', '').strip()`.  Removing every comma and
every hyphen is the same as filtering both characters out. -/
def clean_number_str (l : List Char) : List Char :=
  pyStrip (l.filter (fun c => !(c = ',') && !(c = '-')))

/-- Whether `re.search(r'[a-zA-Z]', s)` succeeds. -/
def hasAlpha (l : List Char) : Bool := l.any isAsciiAlpha

/-- Numeric value of one digit character. -/
def digitVal (c : Char) : ℕ := c.toNat - '0'.toNat

/-- Value of a digit string, ignoring underscores (Python digit groups
may contain `_` separators, which do not affect the value). -/
def digitsVal (l : List Char) : ℕ :=
  (l.filter isAsciiDigit).foldl (fun a c => 10 * a + digitVal c) 0

/-- Continuation of a CPython digit run after at least one digit has been
consumed: further digits, with each underscore standing strictly between
two digits. -/
def digitsUAux : List Char → Bool
  | [] => true
  | '_' :: rest =>
      match rest with
      | [] => false
      | c :: rest2 => isAsciiDigit c && digitsUAux rest2
  | c :: rest => isAsciiDigit c && digitsUAux rest

/-- A CPython digit run: nonempty, starts and ends with a digit, and any
underscore separator sits between two digits. -/
def digitsU : List Char → Bool
  | [] => false
  | c :: rest => isAsciiDigit c && digitsUAux rest

/-- Count of digit characters (used to scale a fractional digit run). -/
def numDigits (l : List Char) : ℕ := (l.filter isAsciiDigit).length

/-- Value and validity of the mantissa of a CPython float literal
(no sign, no exponent): `digits`, `digits.`, `digits.digits` or
`.digits`, with underscore separators inside digit runs.  The value is
returned as a numerator/denominator pair `(n, d)` standing for `n / d`,
with `d` a power of ten. -/
def mantVal? (l : List Char) : Option (ℕ × ℕ) :=
  let a := l.takeWhile (fun c => !(c = '.'))
  let b := l.dropWhile (fun c => !(c = '.'))
  match b with
  | [] => if digitsU a then some (digitsVal a, 1) else none
  | _ :: frac =>
      if digitsU a && frac = [] then some (digitsVal a, 1)
      else if digitsU a && digitsU frac then
        some (digitsVal a * 10 ^ numDigits frac + digitsVal frac, 10 ^ numDigits frac)
      else if a = [] && digitsU frac then
        some (digitsVal frac, 10 ^ numDigits frac)
      else none

/-- Optional sign: returns (isNegative, rest). -/
def signSplit : List Char → Bool × List Char
  | '+' :: r => (false, r)
  | '-' :: r => (true, r)
  | l => (false, l)

/-- Exponent part of a CPython float literal (the text after `e`/`E`):
optional sign followed by a digit run. -/
def expVal? (l : List Char) : Option ℤ :=
  let (neg, r) := signSplit l
  if digitsU r then some (if neg then -(digitsVal r : ℤ) else (digitsVal r : ℤ))
  else none

/-- Value of a finite CPython float literal: optional sign, mantissa,
optional `e`/`E` exponent.  `none` when `float()` would raise
`ValueError`, and also on the non-finite keywords `inf`/`infinity`/`nan`
(whose IEEE values have no rational counterpart; see `floatSpecial`). -/
def finiteFloatVal? (l : List Char) : Option ℚ :=
  let (neg, r) := signSplit l
  let m := r.takeWhile (fun c => !(c = 'e') && !(c = 'E'))
  let e := r.dropWhile (fun c => !(c = 'e') && !(c = 'E'))
  match mantVal? m with
  | none => none
  | some (n, d) =>
      match e with
      | [] => some (mkRat (if neg then -(n : ℤ) else (n : ℤ)) d)
      | _ :: ex =>
          match expVal? ex with
          | none => none
          | some ev =>
              if 0 ≤ ev then
                some (mkRat ((if neg then -(n : ℤ) else (n : ℤ)) * 10 ^ ev.toNat) d)
              else
                some (mkRat (if neg then -(n : ℤ) else (n : ℤ)) (d * 10 ^ (-ev).toNat))

/-- The non-finite keywords accepted by CPython `float()`:
`inf`, `infinity`, `nan`, case-insensitively, after an optional sign. -/
def floatSpecial (l : List Char) : Bool :=
  let r := (signSplit l).2.map Char.toLower
  r = ['i', 'n', 'f'] || r = ['i', 'n', 'f', 'i', 'n', 'i', 't', 'y'] ||
    r = ['n', 'a', 'n']

/-- CPython `float(s)` succeeds (ASCII scope; the argument is already
whitespace-stripped at every call site in the program). -/
def floatAccepts (l : List Char) : Bool :=
  floatSpecial l || (finiteFloatVal? l).isSome

/-- The helper `parse_number` (src/app.py:102-107): clean, strip `%`, `float`;
`0.0` on failure.  The non-finite keywords (which Python would parse to
IEEE `inf`/`nan`) fall to the `0` default here; they are unreachable in
the program because every call site first passes `is_numeric_item`,
whose alphabetic guard rejects them. -/
def parse_number (l : List Char) : ℚ :=
  ((finiteFloatVal? ((clean_number_str l).filter (fun c => !(c = '%')))).getD 0)

/-- The numeric classifier `is_numeric_item` (src/app.py:110-119). -/
def is_numeric_item (l : List Char) : Bool :=
  if l = [] then false
  else
    let c := clean_number_str l
    if c = [] || 15 < c.length then false
    else if hasAlpha c then false
    else floatAccepts c

/-- Python `int(x)` on a float: truncation toward zero. -/
def pyTrunc (q : ℚ) : ℤ := if q < 0 then ⌈q⌉ else ⌊q⌋

/-- The five semantic fields reconstructed from a data row
(src/app.py:205-229, 260-269).  `free` is `none` for the printed
absent marker (the empty string in the source), distinct from `some 0`. -/
structure Fields where
  qty : ℚ
  free : Option ℤ
  rate : ℚ
  amount : ℚ
  tax : ℚ
  deriving DecidableEq, Repr

/-- The numeric-block → fields mapping (src/app.py:205-229).  Python's
negative indices `block[-1] … block[-5]` are the first five entries of
the reversed block; `block[0]` for a length-3 block is its third entry
from the right. -/
def fieldsOf (blk : List ℚ) : Option Fields :=
  match blk.reverse with
  | t :: am :: r :: f :: q :: _ => some ⟨q, some (pyTrunc f), r, am, t⟩
  | [t, am, r, q] => some ⟨q, none, r, am, t⟩
  | [t, am, r] => some ⟨0, none, r, am, t⟩
  | _ => none

/-- One token of a visual line (its text). -/
abbrev Tok := List Char

/-- Right-to-left scan of src/app.py:192-203, walking the reversed token
list: bare `-` tokens are skipped, numeric tokens are prepended to the
numeric block, and the first other token stops the scan, making it and
everything to its left the name tokens. -/
def scanR : List Tok → List ℚ → List ℚ × List Tok
  | [], acc => (acc, [])
  | w :: rest, acc =>
      if pyStrip w = ['-'] then scanR rest acc
      else if is_numeric_item w then scanR rest (parse_number w :: acc)
      else (acc, (w :: rest).reverse)

/-- Split a data row's tokens into (numeric block, name tokens)
(src/app.py:192-203). -/
def splitRow (tokens : List Tok) : List ℚ × List Tok :=
  scanR tokens.reverse []

/-- Attempt of the regex `\s(\d+)\s*-?$` to match at the start of the
given suffix: a whitespace character, then the maximal digit run
(nonempty), then optional whitespace, then an optional hyphen, then the
end of the string.  Returns the digit group on success. -/
def trailMatchAt : List Char → Option (List Char)
  | [] => none
  | c :: rest =>
      if pyWs c then
        let ds := rest.takeWhile isAsciiDigit
        let r2 := rest.dropWhile isAsciiDigit
        if ds = [] then none
        else
          let r3 := r2.dropWhile pyWs
          if r3 = [] || r3 = ['-'] then some ds else none
      else none

/-- The search `re.search(r'\s(\d+)\s*-?$', s)`: the leftmost position where the
anchored pattern matches, with the captured digit group.  Returns
`(match.start, group 1)`. -/
def reSearchT : List Char → Option (ℕ × List Char)
  | [] => none
  | c :: rest =>
      match trailMatchAt (c :: rest) with
      | some ds => some (0, ds)
      | none => (reSearchT rest).map (fun p => (p.1 + 1, p.2))

/-- The name-corrector step (src/app.py:235-242): if the name ends in a
whitespace-separated digit run (optionally followed by a hyphen), and
qty is zero or the candidate is under 1000 and under the rate, move the
digits into qty and strip them (plus trailing spaces/hyphens) from the
name. -/
def nameCorrect (name : List Char) (qty rate : ℚ) : List Char × ℚ :=
  match reSearchT name with
  | none => (name, qty)
  | some (i, ds) =>
      let cand : ℚ := (digitsVal ds : ℕ)
      if qty = 0 ∨ (cand < 1000 ∧ rate > cand) then
        (rstripSpaceDash (pyStrip (name.take i)), cand)
      else (name, qty)

/-- Python `s.split("-")`. -/
def splitOnDash : List Char → List (List Char)
  | [] => [[]]
  | '-' :: rest => [] :: splitOnDash rest
  | c :: rest =>
      match splitOnDash rest with
      | p :: ps => (c :: p) :: ps
      | [] => [[c]]

/-- Header sub-parsing (src/app.py:180-189): split the full text on `-`;
with at least two parts none of which is a numeric item, the last part
(stripped) is the station and the `-`-rejoin of the rest (stripped) is
the party; otherwise the whole line is the party and the station is
cleared.  Returns `(party, station)`. -/
def headerParse (ft : List Char) : List Char × List Char :=
  let parts := splitOnDash ft
  if 2 ≤ parts.length ∧ ¬ (parts.any is_numeric_item = true) then
    (pyStrip (List.intercalate ['-'] parts.dropLast), pyStrip (parts.getLastD []))
  else (ft, [])

/-- Python `sub in s`: substring containment. -/
def isSubstr (needle hay : List Char) : Bool :=
  hay.tails.any (fun t => needle.isPrefixOf t)

/-- ASCII lower-casing, Python `s.lower()` on the program's strings. -/
def toLowerL (l : List Char) : List Char := l.map Char.toLower

/-- The full text of a visual line (src/app.py:150-151):
tokens joined with single spaces, then stripped. -/
def fullTextOf (tokens : List Tok) : List Char :=
  pyStrip (List.intercalate [' '] tokens)

/-- Count of tokens satisfying the numeric classifier (src/app.py:175). -/
def numericCount (tokens : List Tok) : ℕ :=
  (tokens.filter is_numeric_item).length

/-- Outcome of the line classifier. -/
inductive LineClass where
  | Noise
  | Header
  | DataRow
  deriving DecidableEq, Repr

/-- The line classifier, read off the `continue`/branch structure of
src/app.py:153-179: empty text, text shorter than 3 characters,
a case-insensitive occurrence of "total", or a boilerplate substring
give Noise; at least 3 numeric tokens give DataRow; anything else is a
Header. -/
def classify (tokens : List Tok) : LineClass :=
  let ft := fullTextOf tokens
  if ft = [] then .Noise
  else if ft.length < 3 then .Noise
  else if isSubstr (String.toList "total") (toLowerL ft) then .Noise
  else if isSubstr (String.toList "Page No") ft ||
      isSubstr (String.toList "VEDIKA PHARMACY") ft ||
      isSubstr (String.toList "DESCRIPTION") ft then .Noise
  else if 3 ≤ numericCount tokens then .DataRow
  else .Header

/-- The table `PRODUCT_MAPPING` (src/app.py:20-84): canonical name → known
variant spellings. -/
def PRODUCT_MAPPING : List (String × List String) :=
  [("ALPHALACT-1 400GM",
    ["ALPHALACT -1 4009M", "ALPHALACT-I PREM 400GM", "Alphalact-1 400gm",
     "ALPHALACT-1 400gm", "ALPMALACT-1, 400gm."]),
   ("ALPHALACT-1 200GM", ["ALPHALACT-1200GM", "Alphalact-1 200gm"]),
   ("ALPHALACT-2 400GM",
    ["ALPHALACT 2400GM", "ALPHALACT 2 No. 400gm.", "ALPHACTT-24009m",
     "ALPHALACT-2 400GM"]),
   ("ALPHALACT PLUS 400GM",
    ["ALPHALACT PLUS 400GM.", "ALPHALACT PLUS 400gm:", "Albhalact Plus -1 400gm...",
     "ALPHALACT PRE PLUS 400GM", "ALPHALACT PRM PLUS 400GM", "ALPHALACT PLUS-1 4009M"]),
   ("ALPHALACT PLUS 200GM",
    ["ALPHALACT PLUS 2009M", "Alphalact-Plus-1200gm", "ALPHALACT PRE PLUS 2009M",
     "ALPHALCT PROM PLUS 2009M", "ALPHALACT PLUS-1200GM"]),
   ("ALPHALACT LBW 400GM",
    ["Alphalact LBW 400gm", "ALPHALACT LBW 400GM", "ALPHALACT PRM LBW 400GM",
     "ALPHALACT LBW 4009M"]),
   ("ALPHALACT PREMIUM 400GM",
    ["ALPHALACT PREMIUM-400GM", "ALPHALACT PREMIUN 4009m"]),
   ("ALPHALACT PREMIUM 200GM",
    ["ALPHALACT - PREM 2009M.", "ALPHALACT PREMIUN 2009m", "ALPHALACT PREMIUM 200GM"]),
   ("ALPHALACT LF 200GM",
    ["ALPHALACT-LF 2009m", "ALPHALACT LF-PRE. 2009m.", "ALPHALACT-LF 200GM",
     "Alphalact LF 200gm", "ALPHALACT LF (2009m 2009m)", "ALPHALACT PRMLF 2009M"]),
   ("ALPHAFIT MOM 200GM",
    ["Alphafit mom 200gm Choc", "ALPHAFIT MOm 2009m", "ALPHAFIT 2009M Choc."]),
   ("ALPHAHEALTH PLUS 200GM", ["ALPHAHEALTH PLUS 200GM."])]

/-- The table `PRODUCT_MAPPING` on the `List Char` string model. -/
def PRODUCT_MAPPING_L : List (List Char × List (List Char)) :=
  PRODUCT_MAPPING.map (fun e => (e.1.toList, e.2.map String.toList))

/-- Python `s.upper()` on ASCII strings. -/
def upperL (l : List Char) : List Char := l.map Char.toUpper

/-- A Python dict assignment `m[k] = v`, modelled as appending;
`pyGet` reads the last binding of a key, so later assignments win. -/
def dictAssign (m : List (List Char × List Char)) (k v : List Char) :
    List (List Char × List Char) :=
  m ++ [(k, v)]

/-- Python `m.get(k)` over the assignment-ordered binding list. -/
def pyGet (m : List (List Char × List Char)) (k : List Char) : Option (List Char) :=
  (m.filter (fun p => p.1 = k)).getLast?.map (fun p => p.2)

/-- The flattening loop of src/app.py:87-93: for each (standard,
variations) entry, bind the standard name, its uppercase, and every
variation and its uppercase, to the standard name. -/
def flattenStep (m : List (List Char × List Char)) (e : List Char × List (List Char)) :
    List (List Char × List Char) :=
  let m2 := dictAssign (dictAssign m e.1 e.1) (upperL e.1) e.1
  e.2.foldl (fun acc v => dictAssign (dictAssign acc v e.1) (upperL v) e.1) m2

/-- The lookup table `FLATTENED_MAPPING` (src/app.py:87-93). -/
def FLATTENED_MAPPING : List (List Char × List Char) :=
  PRODUCT_MAPPING_L.foldl flattenStep []

/-- A dict lookup as used at src/app.py:245-248: a present-but-falsy
value (the empty string) behaves like an absent key, because the source
tests `if not final_name`.  No value in `FLATTENED_MAPPING` is empty, so
this agrees with plain lookup there. -/
def pyTruthyGet (m : List (List Char × List Char)) (k : List Char) : Option (List Char) :=
  match pyGet m k with
  | some v => if v = [] then none else some v
  | none => none

/-- The name canonicalizer (src/app.py:244-249): exact lookup, then
uppercase lookup, then the raw name unchanged. -/
def canonicalizeL (raw : List Char) : List Char :=
  match pyTruthyGet FLATTENED_MAPPING raw with
  | some v => v
  | none =>
      match pyTruthyGet FLATTENED_MAPPING (upperL raw) with
      | some v => v
      | none => raw

/-- Parser state carried across lines (src/app.py:132-133). -/
structure PState where
  party : List Char
  station : List Char
  deriving DecidableEq, Repr

/-- One emitted sales record (src/app.py:260-269), restricted to the
fields the pipeline computes per line. -/
structure SalesRecord where
  party : List Char
  station : List Char
  name : List Char
  f : Fields
  deriving DecidableEq, Repr

/-- Python `s.split(" - ")`: split on the three-character separator,
non-overlapping, leftmost-first. -/
def splitDashSep : List Char → List (List Char)
  | ' ' :: '-' :: ' ' :: rest => [] :: splitDashSep rest
  | c :: rest =>
      match splitDashSep rest with
      | p :: ps => (c :: p) :: ps
      | [] => [[c]]
  | [] => [[]]

/-- Processing of one visual line (the body of the loop at
src/app.py:148-269, after title extraction): noise lines are dropped,
header lines update the party/station state, data lines with a numeric
block of at least 3 entries emit a record (possibly after the trailing
qty correction, the name canonicalization and the inline-party
fallback), and data lines with a shorter block are dropped.  Returns
the new state and the emitted record, if any. -/
def lineStep (st : PState) (tokens : List Tok) : PState × Option SalesRecord :=
  match classify tokens with
  | .Noise => (st, none)
  | .Header =>
      let (p, s) := headerParse (fullTextOf tokens)
      (⟨p, s⟩, none)
  | .DataRow =>
      let (blk, nameParts) := splitRow tokens
      match fieldsOf blk with
      | none => (st, none)
      | some f =>
          let raw0 := rstripSpaceDash (pyStrip (List.intercalate [' '] nameParts))
          let (raw1, qty1) := nameCorrect raw0 f.qty f.rate
          let f1 : Fields := { f with qty := qty1 }
          let fin0 := canonicalizeL raw1
          if st.party = [] ∧ isSubstr (String.toList " - ") raw1 = true then
            let sp := splitDashSep raw1
            let party1 := sp.headD []
            let namePart := List.intercalate (String.toList " - ") (sp.drop 1)
            let fin1 := (pyGet FLATTENED_MAPPING namePart).getD namePart
            (⟨party1, st.station⟩, some ⟨party1, st.station, fin1, f1⟩)
          else
            (st, some ⟨st.party, st.station, fin0, f1⟩)

/-- A value treated as a missing party/station by the finalization pass
(src/app.py:274-279): the empty string, or a nonempty string of
whitespace and hyphens (the regex `^[\s\-]+$`). -/
def isPlaceholder (s : List Char) : Bool :=
  s.all (fun c => pyWs c || c = '-')

/-- The pandas forward-fill over one column (src/app.py:274-284):
placeholder values become NA, NA inherits the nearest preceding
non-NA value, and a leading NA run is finalized to the empty string
by `fillna("")`.  `prev` is the last non-placeholder value seen. -/
def ffillCol (prev : Option (List Char)) : List (List Char) → List (List Char)
  | [] => []
  | s :: rest =>
      if isPlaceholder s then (prev.getD []) :: ffillCol prev rest
      else s :: ffillCol (some s) rest

/-- The whole forward-fill pass over one column. -/
def forwardFill (l : List (List Char)) : List (List Char) := ffillCol none l

/-- The value the specification assigns to position `i` of a
forward-filled column: the original value if it is not a placeholder,
otherwise the nearest preceding non-placeholder value (the empty string
when none exists). -/
def specFillAt (l : List (List Char)) (i : ℕ) : List Char :=
  if isPlaceholder (l.getD i []) then
    (((l.take i).filter (fun s => !isPlaceholder s)).getLast?).getD []
  else l.getD i []

/-- Python `round`: round half to even (banker's rounding), on exact
rationals.  With `q = num / den` in lowest terms and `f = ⌊q⌋`, the
fractional part `q - f` equals `(num - f * den) / den`, so comparing it
with `1/2` is comparing `2 * (num - f * den)` with `den`; the half-way
tie goes to the even neighbour. -/
def pyRound (q : ℚ) : ℤ :=
  let f := ⌊q⌋
  let r2 : ℤ := 2 * (q.num - f * (q.den : ℤ))
  if r2 < (q.den : ℤ) then f
  else if (q.den : ℤ) < r2 then f + 1
  else if f % 2 = 0 then f else f + 1

/-- The vertical bucket key of a token ordinate
(src/app.py:142: `round(word['top'] / 5) * 5`); the division by 5 is
written `mkRat t.num (5 * t.den)`, which `bucketKey_div` identifies
with `t / 5`. -/
def bucketKey (t : ℚ) : ℤ := pyRound (mkRat t.num (5 * t.den)) * 5

/-- Mean of a list of ordinates (the line position used when
re-bucketing an already-grouped line). -/
def ratMean (l : List ℚ) : ℚ := l.sum / l.length

set_option maxRecDepth 16000

/-- Building `mkRat t.num (5 * t.den)` is division of `t` by 5. -/
theorem mkRat_num_five_den (t : ℚ) : mkRat t.num (5 * t.den) = t / 5 := by
  rw [Rat.mkRat_eq_div]
  push_cast
  conv_rhs => rw [← Rat.num_div_den t]
  rw [div_div, mul_comm]

/-- The bucket key is `round(t / 5) * 5`. -/
theorem bucketKey_div (t : ℚ) : bucketKey t = pyRound (t / 5) * 5 := by
  rw [bucketKey, mkRat_num_five_den]

/-- C1: the numeric-block → field mapping.  A block of length at least 5
maps its last five entries to qty, free (integer-truncated), rate,
amount and tax; a block of length 4 has no free entry; a block of
length 3 keeps qty at the zero sentinel and reads rate from its first
entry; the two concrete blocks of the specification map as stated. -/
theorem c1_field_reconstructor :
    (∀ (pre : List ℚ) (a b c d e : ℚ),
      fieldsOf (pre ++ [a, b, c, d, e]) = some ⟨a, some (pyTrunc b), c, d, e⟩) ∧
    (∀ a b c d : ℚ, fieldsOf [a, b, c, d] = some ⟨a, none, b, c, d⟩) ∧
    (∀ a b c : ℚ, fieldsOf [a, b, c] = some ⟨0, none, a, b, c⟩) ∧
    fieldsOf [10, 2, 50.5, 505, 5] = some ⟨10, some 2, 50.5, 505, 5⟩ ∧
    fieldsOf [10, 50.5, 505, 5] = some ⟨10, none, 50.5, 505, 5⟩ := by
  refine ⟨?_, ?_, ?_, ?_, ?_⟩
  · intro pre a b c d e
    simp [fieldsOf, List.reverse_append]
  · intro a b c d; rfl
  · intro a b c; rfl
  · have h : (50.5 : ℚ) = mkRat 101 2 := by norm_num
    rw [h]; decide
  · have h : (50.5 : ℚ) = mkRat 101 2 := by norm_num
    rw [h]; decide

/-- C3: the name corrector.  Whenever the trailing-digits pattern
matches, the digits overwrite qty and are stripped from the name
exactly when qty is zero, or the candidate is under 1000 and under the
current rate; otherwise name and qty are untouched.  The two concrete
examples of the specification behave as stated. -/
theorem c3_name_corrector :
    (∀ (name : List Char) (qty rate : ℚ) (i : ℕ) (ds : List Char),
      reSearchT name = some (i, ds) →
      nameCorrect name qty rate =
        if qty = 0 ∨ ((digitsVal ds : ℚ) < 1000 ∧ rate > (digitsVal ds : ℚ)) then
          (rstripSpaceDash (pyStrip (name.take i)), ((digitsVal ds : ℕ) : ℚ))
        else (name, qty)) ∧
    nameCorrect (String.toList "PARACETAMOL 500MG 12") 0 8 =
      (String.toList "PARACETAMOL 500MG", 12) ∧
    nameCorrect (String.toList "PARACETAMOL 500MG 2000") 15 8 =
      (String.toList "PARACETAMOL 500MG 2000", 15) := by
  refine ⟨?_, by decide, by decide⟩
  intro name qty rate i ds h
  simp [nameCorrect, h]

/-- C3 witness: a concrete application of the general statement. -/
theorem c3_witness : nameCorrect (String.toList "AB 7") 0 5 = (String.toList "AB", 7) := by
  have h := c3_name_corrector.1 (String.toList "AB 7") 0 5 2 ['7'] (by decide)
  rw [h]; decide

/-- C4: header sub-parsing.  A line classified Header updates the state
through `headerParse`; that function splits on `-`, and with at least
two parts none of which is a numeric item takes the trimmed last part
as station and the trimmed `-`-rejoin of the rest as party, otherwise
keeps the whole line as party with an empty station; the two concrete
headers of the specification parse as stated. -/
theorem c4_header_split :
    (∀ (st : PState) (tokens : List Tok), classify tokens = LineClass.Header →
      lineStep st tokens =
        (⟨(headerParse (fullTextOf tokens)).1, (headerParse (fullTextOf tokens)).2⟩, none)) ∧
    (∀ ft : List Char,
      2 ≤ (splitOnDash ft).length → (splitOnDash ft).any is_numeric_item = false →
      headerParse ft =
        (pyStrip (List.intercalate ['-'] (splitOnDash ft).dropLast),
         pyStrip ((splitOnDash ft).getLastD []))) ∧
    (∀ ft : List Char,
      ¬ (2 ≤ (splitOnDash ft).length ∧ (splitOnDash ft).any is_numeric_item = false) →
      headerParse ft = (ft, [])) ∧
    headerParse (String.toList "ACME PHARMA - PUNE") =
      (String.toList "ACME PHARMA", String.toList "PUNE") ∧
    headerParse (String.toList "AB-CD PHARMA") =
      (String.toList "AB", String.toList "CD PHARMA") := by
  refine ⟨?_, ?_, ?_, by decide, by decide⟩
  · intro st tokens h
    simp [lineStep, h]
  · intro ft h1 h2
    simp [headerParse, h1, h2]
  · intro ft h
    rw [headerParse, if_neg]
    intro hc
    exact h ⟨hc.1, by simpa using hc.2⟩

/-- C4 witness: a concrete header line through `lineStep`. -/
theorem c4_witness :
    lineStep ⟨[], []⟩ [String.toList "ACME", String.toList "-", String.toList "PUNE"] =
      (⟨String.toList "ACME", String.toList "PUNE"⟩, none) := by
  have h := c4_header_split.1 ⟨[], []⟩
    [String.toList "ACME", String.toList "-", String.toList "PUNE"] (by decide)
  rw [h]; decide

/-- C10: a line can be classified DataRow (at least 3 numeric tokens)
and still emit nothing: when the right-to-left scan stops before
collecting 3 numeric entries, the line is dropped and the party/station
state is left untouched. -/
theorem c10_datarow_not_emitted :
    ∃ tokens : List Tok,
      classify tokens = LineClass.DataRow ∧
      3 ≤ numericCount tokens ∧
      ((splitRow tokens).1).length < 3 ∧
      ∀ st : PState, lineStep st tokens = (st, none) := by
  refine ⟨[String.toList "5", String.toList "7", String.toList "ABC", String.toList "9"],
    by decide, by decide, by decide, ?_⟩
  intro st
  rfl

/-- No value bound in the flattened mapping is the empty string, so the
falsy-value test of src/app.py:246/248 coincides with a missing key. -/
theorem flattened_vals_ne_nil : ∀ p ∈ FLATTENED_MAPPING, p.2 ≠ [] := by decide

/-- A successful `pyGet` returns the second component of some binding of
the dictionary. -/
theorem pyGet_some_mem {m : List (List Char × List Char)} {k v : List Char}
    (h : pyGet m k = some v) : ∃ p, p ∈ m ∧ p.2 = v := by
  unfold pyGet at h
  rcases Option.map_eq_some'.mp h with ⟨p, hp, hv⟩
  rcases List.mem_getLast?_eq_getLast hp with ⟨hne, rfl⟩
  exact ⟨_, List.mem_of_mem_filter (List.getLast_mem hne), hv⟩

/-- C6: the name canonicalizer returns the exact-key binding when it
exists, else the uppercase-key binding when it exists, else the raw
name unchanged — so exact match takes precedence and an unknown name
passes through rather than failing. -/
theorem c6_canonicalizer :
    (∀ raw v, pyGet FLATTENED_MAPPING raw = some v → canonicalizeL raw = v) ∧
    (∀ raw v, pyGet FLATTENED_MAPPING raw = none →
      pyGet FLATTENED_MAPPING (upperL raw) = some v → canonicalizeL raw = v) ∧
    (∀ raw, pyGet FLATTENED_MAPPING raw = none →
      pyGet FLATTENED_MAPPING (upperL raw) = none → canonicalizeL raw = raw) := by
  refine ⟨?_, ?_, ?_⟩
  · intro raw v h
    rcases pyGet_some_mem h with ⟨p, hp, hv⟩
    have hne : v ≠ [] := hv ▸ flattened_vals_ne_nil p hp
    unfold canonicalizeL pyTruthyGet
    rw [h]
    simp [hne]
  · intro raw v h1 h2
    rcases pyGet_some_mem h2 with ⟨p, hp, hv⟩
    have hne : v ≠ [] := hv ▸ flattened_vals_ne_nil p hp
    unfold canonicalizeL pyTruthyGet
    rw [h1, h2]
    simp [hne]
  · intro raw h1 h2
    unfold canonicalizeL pyTruthyGet
    rw [h1, h2]

/-- C6 witness: an uppercase-only hit and both lookups evaluated. -/
theorem c6_witness :
    canonicalizeL (String.toList "alphalact-1 200gm") = String.toList "ALPHALACT-1 200GM" :=
  c6_canonicalizer.2.1 (String.toList "alphalact-1 200gm") (String.toList "ALPHALACT-1 200GM")
    (by decide) (by decide)

/-- The line-classification policy exactly as the specification words it:
empty or shorter-than-3 trimmed text is noise, then a case-insensitive
"total" occurrence is noise, then any boilerplate substring is noise,
then at least 3 numeric tokens make a data row, and anything else is a
header. -/
def specClassify (tokens : List Tok) : LineClass :=
  let ft := fullTextOf tokens
  if ft = [] ∨ ft.length < 3 then .Noise
  else if isSubstr (String.toList "total") (toLowerL ft) = true then .Noise
  else if isSubstr (String.toList "Page No") ft = true ∨
      isSubstr (String.toList "VEDIKA PHARMACY") ft = true ∨
      isSubstr (String.toList "DESCRIPTION") ft = true then .Noise
  else if 3 ≤ numericCount tokens then .DataRow
  else .Header

/-- C7: the classifier of src/app.py:153-179 applies its rules in
exactly the order the specification states. -/
theorem c7_classifier_order : ∀ tokens : List Tok, classify tokens = specClassify tokens := by
  intro tokens
  by_cases h1 : fullTextOf tokens = []
  · simp [classify, specClassify, h1]
  · by_cases h2 : (fullTextOf tokens).length < 3
    · simp [classify, specClassify, h1, h2]
    · have h12 : ¬ (fullTextOf tokens = [] ∨ (fullTextOf tokens).length < 3) :=
        not_or.mpr ⟨h1, h2⟩
      simp only [classify, specClassify, if_neg h1, if_neg h2, if_neg h12]
      split_ifs with g1 g2 g3 <;> simp_all [Bool.or_eq_true]

/-- A member of a list that fails the predicate survives `dropWhile`. -/
theorem mem_dropWhile_of_mem {p : Char → Bool} {c : Char} {l : List Char}
    (hm : c ∈ l) (hp : p c = false) : c ∈ l.dropWhile p := by
  induction l with
  | nil => cases hm
  | cons a t ih =>
      by_cases ha : p a = true
      · rcases List.mem_cons.mp hm with rfl | h
        · rw [ha] at hp; cases hp
        · simpa [List.dropWhile_cons, ha] using ih h
      · have ha2 : p a = false := by simpa using ha
        simpa [List.dropWhile_cons, ha2] using hm

/-- A non-whitespace member of a string survives `pyStrip`. -/
theorem mem_pyStrip {c : Char} {l : List Char} (hm : c ∈ l) (hw : pyWs c = false) :
    c ∈ pyStrip l := by
  unfold pyStrip
  rw [List.mem_reverse]
  refine mem_dropWhile_of_mem ?_ hw
  rw [List.mem_reverse]
  exact mem_dropWhile_of_mem hm hw

/-- An ASCII letter is not whitespace. -/
theorem alpha_not_ws {c : Char} (h : isAsciiAlpha c = true) : pyWs c = false := by
  by_contra hws
  rw [Bool.not_eq_false] at hws
  simp only [pyWs, Bool.or_eq_true, decide_eq_true_eq] at hws
  rcases hws with ((((rfl | rfl) | rfl) | rfl) | rfl) | rfl <;> exact absurd h (by decide)

/-- An ASCII letter is neither a comma nor a hyphen. -/
theorem alpha_not_comma_dash {c : Char} (h : isAsciiAlpha c = true) :
    (!(c = ',') && !(c = '-')) = true := by
  by_contra hcd
  simp only [Bool.and_eq_true, Bool.not_eq_true', decide_eq_false_iff_not, not_and_or,
    not_not] at hcd
  rcases hcd with rfl | rfl <;> exact absurd h (by decide)

/-- An alphabetic character in a token survives into its cleaned form. -/
theorem hasAlpha_clean {l : List Char} (h : hasAlpha l = true) :
    hasAlpha (clean_number_str l) = true := by
  rcases List.any_eq_true.mp h with ⟨c, hc, hca⟩
  refine List.any_eq_true.mpr ⟨c, ?_, hca⟩
  exact mem_pyStrip (List.mem_filter.mpr ⟨hc, alpha_not_comma_dash hca⟩) (alpha_not_ws hca)

/-- C2 counterexample: the claim's right-hand side strips percent signs
before the parse test, but `is_numeric_item` does not (only
`parse_number` does); on the token "5%" the percent-stripped remainder
"5" parses as a float of length 1, yet the classifier rejects the
token. -/
theorem c2_counterexample :
    ¬ (is_numeric_item (String.toList "5%") = true ↔
      (floatAccepts ((clean_number_str (String.toList "5%")).filter (fun c => !(c = '%'))) = true ∧
        ((clean_number_str (String.toList "5%")).filter (fun c => !(c = '%'))).length ≤ 15)) := by
  decide

/-- C2 amended: a token containing an alphabetic character is never
numeric; and a token is numeric exactly when its comma/hyphen-stripped,
whitespace-trimmed remainder (with no percent stripping) has length at
most 15, contains no alphabetic character, and parses as a float. -/
theorem c2_amended : ∀ t : List Char,
    (hasAlpha t = true → is_numeric_item t = false) ∧
    (is_numeric_item t = true ↔
      ((clean_number_str t).length ≤ 15 ∧ hasAlpha (clean_number_str t) = false ∧
        floatAccepts (clean_number_str t) = true)) := by
  intro t
  constructor
  · intro h
    have h2 := hasAlpha_clean h
    simp only [is_numeric_item]
    split_ifs <;> rfl
  · simp only [is_numeric_item]
    split_ifs with e1 e2 e3
    · subst e1
      constructor
      · intro h; cases h
      · rintro ⟨-, -, hacc⟩
        exact absurd hacc (by decide)
    · have e2' : clean_number_str t = [] ∨ 15 < (clean_number_str t).length := by
        simpa using e2
      rcases e2' with hc2 | hlen2
      · constructor
        · intro h; cases h
        · rintro ⟨-, -, hacc⟩
          rw [hc2] at hacc
          exact absurd hacc (by decide)
      · constructor
        · intro h; cases h
        · rintro ⟨hle, -, -⟩
          omega
    · constructor
      · intro h; cases h
      · rintro ⟨-, hal, -⟩
        simp_all
    · simp only [Bool.or_eq_true, decide_eq_true_eq, not_or, not_lt] at e2
      rw [Bool.not_eq_true] at e3
      exact ⟨fun h => ⟨e2.2, e3, h⟩, fun h => h.2.2⟩

/-- C2 witness: the amended statement applied to a concrete token with
an alphabetic character. -/
theorem c2_amended_witness : is_numeric_item (String.toList "200GM") = false :=
  (c2_amended (String.toList "200GM")).1 (by decide)

/-- The last non-placeholder value carried by the fill, as a list
(empty when no value has been seen yet). -/
def optList : Option (List Char) → List (List Char)
  | none => []
  | some p => [p]

/-- Pointwise description of the forward fill, generalized over the
carried value: position `i` keeps its value unless it is a placeholder,
in which case it receives the last non-placeholder value among the
carried value and the preceding entries, or the empty string. -/
theorem ffillCol_getD (l : List (List Char)) :
    ∀ (prev : Option (List Char)) (i : ℕ), i < l.length →
    (∀ p, prev = some p → isPlaceholder p = false) →
    (ffillCol prev l).getD i [] =
      (if isPlaceholder (l.getD i []) then
        (((optList prev ++ l.take i).filter (fun s => !isPlaceholder s)).getLast?).getD []
      else l.getD i []) := by
  induction l with
  | nil =>
      intro prev i hi hprev
      simp at hi
  | cons s rest ih =>
      intro prev i hi hprev
      by_cases hs : isPlaceholder s = true
      · cases i with
        | zero =>
            simp only [ffillCol, if_pos hs, List.getD_cons_zero, List.take_zero,
              List.append_nil]
            cases prev with
            | none => simp [optList]
            | some p => simp [optList, hprev p rfl]
        | succ j =>
            have hj : j < rest.length := by simpa using hi
            have hrec := ih prev j hj hprev
            simp only [ffillCol, if_pos hs, List.getD_cons_succ, List.take_succ_cons]
            rw [hrec]
            by_cases hp : isPlaceholder (rest.getD j []) = true
            · rw [if_pos hp, if_pos hp]
              have h1 : (optList prev ++ s :: rest.take j).filter (fun x => !isPlaceholder x) =
                  (optList prev ++ rest.take j).filter (fun x => !isPlaceholder x) := by
                simp [List.filter_append, List.filter_cons, hs]
              rw [h1]
            · rw [if_neg hp, if_neg hp]
      · have hs2 : isPlaceholder s = false := by simpa using hs
        cases i with
        | zero =>
            simp only [ffillCol, if_neg hs, List.getD_cons_zero]
        | succ j =>
            have hj : j < rest.length := by simpa using hi
            have hrec := ih (some s) j hj (by intro p hp; cases hp; exact hs2)
            simp only [ffillCol, if_neg hs, List.getD_cons_succ, List.take_succ_cons]
            rw [hrec]
            by_cases hp : isPlaceholder (rest.getD j []) = true
            · rw [if_pos hp, if_pos hp]
              have h1 : (optList prev ++ s :: rest.take j).filter (fun x => !isPlaceholder x) =
                  (optList prev).filter (fun x => !isPlaceholder x) ++
                    (s :: (rest.take j).filter (fun x => !isPlaceholder x)) := by
                simp [List.filter_append, List.filter_cons, hs2]
              have h2 : (optList (some s) ++ rest.take j).filter (fun x => !isPlaceholder x) =
                  s :: (rest.take j).filter (fun x => !isPlaceholder x) := by
                simp [optList, List.filter_cons, hs2]
              rw [h1, h2, List.getLast?_append_of_ne_nil _ (List.cons_ne_nil _ _)]
            · rw [if_neg hp, if_neg hp]

/-- C5: the forward-fill pass leaves non-placeholder values unchanged
and gives every placeholder (empty, or whitespace-and-hyphens only)
value the nearest preceding non-placeholder value, or the empty string
when no such value precedes it; the specification's concrete party
sequence fills as stated. -/
theorem c5_forward_fill :
    (∀ (l : List (List Char)) (i : ℕ), i < l.length →
      (forwardFill l).getD i [] = specFillAt l i) ∧
    forwardFill [[], [], String.toList "ACME", [], String.toList "BETA", []] =
      [[], [], String.toList "ACME", String.toList "ACME",
        String.toList "BETA", String.toList "BETA"] := by
  constructor
  · intro l i hi
    have h := ffillCol_getD l none i hi (by intro p hp; cases hp)
    simpa [forwardFill, specFillAt, optList] using h
  · decide

/-- C5 witness: the pointwise statement applied at a concrete index. -/
theorem c5_witness :
    (forwardFill [[], String.toList "ACME", []]).getD 2 [] = String.toList "ACME" :=
  (c5_forward_fill.1 [[], String.toList "ACME", []] 2 (by decide)).trans (by decide)

/-- A negative sign can only be consumed from a string that contains a
hyphen. -/
theorem signSplit_neg_mem : ∀ l : List Char, (signSplit l).1 = true → '-' ∈ l := by
  intro l
  unfold signSplit
  split
  · intro h; cases h
  · intro _; exact List.mem_cons_self _ _
  · intro h; cases h

/-- A rational built by `mkRat` from a non-negative numerator is
non-negative. -/
theorem mkRat_nonneg_of_nonneg {n : ℤ} (hn : 0 ≤ n) (d : ℕ) : 0 ≤ mkRat n d := by
  rw [Rat.mkRat_eq_div]
  apply div_nonneg
  · exact_mod_cast hn
  · exact_mod_cast Nat.zero_le d

/-- A finite float parsed from a hyphen-free string is non-negative:
with no `-` available, no negative sign can be consumed, and the
magnitude is a quotient of naturals. -/
theorem finiteFloatVal?_nonneg {l : List Char} (hl : '-' ∉ l) {v : ℚ}
    (h : finiteFloatVal? l = some v) : 0 ≤ v := by
  have hneg : (signSplit l).1 = false := by
    rcases Bool.eq_false_or_eq_true (signSplit l).1 with ht | hf
    · exact absurd (signSplit_neg_mem l ht) hl
    · exact hf
  rcases hsig : signSplit l with ⟨neg, r⟩
  rw [hsig] at hneg
  simp only at hneg
  subst hneg
  rcases hm : mantVal? (r.takeWhile (fun c => !(c = 'e') && !(c = 'E'))) with _ | ⟨n, d⟩
  · simp [finiteFloatVal?, hsig, hm] at h
  · rcases he : r.dropWhile (fun c => !(c = 'e') && !(c = 'E')) with _ | ⟨e0, ex⟩
    · simp only [finiteFloatVal?, hsig, hm, he, Bool.false_eq_true, if_false,
        Option.some.injEq] at h
      subst h
      exact mkRat_nonneg_of_nonneg (by exact_mod_cast Nat.zero_le n) d
    · rcases hx : expVal? ex with _ | ev
      · simp [finiteFloatVal?, hsig, hm, he, hx] at h
      · simp only [finiteFloatVal?, hsig, hm, he, hx, Bool.false_eq_true, if_false] at h
        split_ifs at h with hev
        · rw [Option.some.injEq] at h
          subst h
          apply mkRat_nonneg_of_nonneg _ d
          positivity
        · rw [Option.some.injEq] at h
          subst h
          exact mkRat_nonneg_of_nonneg (by exact_mod_cast Nat.zero_le n) _

/-- Stripping only removes characters. -/
theorem mem_of_mem_pyStrip {c : Char} {l : List Char} (h : c ∈ pyStrip l) : c ∈ l := by
  unfold pyStrip at h
  rw [List.mem_reverse] at h
  have h2 := (List.dropWhile_sublist (p := pyWs)
    (l := (l.dropWhile pyWs).reverse)).mem h
  rw [List.mem_reverse] at h2
  exact (List.dropWhile_sublist (p := pyWs) (l := l)).mem h2

/-- No hyphen survives `clean_number_str`. -/
theorem dash_not_mem_clean (l : List Char) : '-' ∉ clean_number_str l := by
  intro h
  have h2 := mem_of_mem_pyStrip h
  have h3 := List.of_mem_filter h2
  exact absurd h3 (by decide)

/-- C8 core fact: `parse_number` never yields a negative value, because
cleaning removes every hyphen before conversion. -/
theorem parse_number_nonneg (l : List Char) : 0 ≤ parse_number l := by
  unfold parse_number
  rcases hf : finiteFloatVal? ((clean_number_str l).filter (fun c => !(c = '%'))) with _ | v
  · simp
  · simp only [Option.getD_some]
    refine finiteFloatVal?_nonneg ?_ hf
    intro hm
    exact dash_not_mem_clean l (List.mem_of_mem_filter hm)

/-- Every entry of the numeric block built by the scan is a
`parse_number` value or came from a non-negative accumulator. -/
theorem scanR_nonneg : ∀ (rev : List Tok) (acc : List ℚ),
    (∀ x ∈ acc, 0 ≤ x) → ∀ x ∈ (scanR rev acc).1, 0 ≤ x := by
  intro rev
  induction rev with
  | nil =>
      intro acc hacc x hx
      simp only [scanR] at hx
      exact hacc x hx
  | cons w rest ih =>
      intro acc hacc x hx
      by_cases h1 : pyStrip w = ['-']
      · simp only [scanR, if_pos h1] at hx
        exact ih acc hacc x hx
      · by_cases h2 : is_numeric_item w = true
        · simp only [scanR, if_neg h1, if_pos h2] at hx
          refine ih _ ?_ x hx
          intro y hy
          rcases List.mem_cons.mp hy with rfl | hy2
          · exact parse_number_nonneg w
          · exact hacc y hy2
        · simp only [scanR, if_neg h1, if_neg h2] at hx
          exact hacc x hx

/-- Truncation toward zero of a non-negative rational is non-negative. -/
theorem pyTrunc_nonneg {q : ℚ} (h : 0 ≤ q) : 0 ≤ pyTrunc q := by
  unfold pyTrunc
  rw [if_neg (not_lt.mpr h)]
  exact Int.floor_nonneg.mpr h

/-- A block of non-negative entries maps to non-negative fields, with
`free` either absent or a non-negative integer. -/
theorem fieldsOf_nonneg {blk : List ℚ} (hb : ∀ x ∈ blk, 0 ≤ x) {f : Fields}
    (h : fieldsOf blk = some f) :
    0 ≤ f.qty ∧ 0 ≤ f.rate ∧ 0 ≤ f.amount ∧
      (f.free = none ∨ ∃ n : ℤ, f.free = some n ∧ 0 ≤ n) := by
  have hbr : ∀ x ∈ blk.reverse, 0 ≤ x := fun x hx => hb x (List.mem_reverse.mp hx)
  unfold fieldsOf at h
  split at h
  · rename_i t am r fr q rest heq
    rw [Option.some.injEq] at h
    subst h
    have hmem : ∀ x ∈ t :: am :: r :: fr :: q :: rest, 0 ≤ x := heq ▸ hbr
    refine ⟨hmem q (by simp), hmem r (by simp), hmem am (by simp), Or.inr ⟨pyTrunc fr, rfl,
      pyTrunc_nonneg (hmem fr (by simp))⟩⟩
  · rename_i t am r q heq
    rw [Option.some.injEq] at h
    subst h
    have hmem : ∀ x ∈ [t, am, r, q], 0 ≤ x := heq ▸ hbr
    exact ⟨hmem q (by simp), hmem r (by simp), hmem am (by simp), Or.inl rfl⟩
  · rename_i t am r heq
    rw [Option.some.injEq] at h
    subst h
    have hmem : ∀ x ∈ [t, am, r], 0 ≤ x := heq ▸ hbr
    exact ⟨le_refl 0, hmem r (by simp), hmem am (by simp), Or.inl rfl⟩
  · cases h

/-- The corrected quantity stays non-negative: it is either the old
quantity or the value of a digit run. -/
theorem nameCorrect_qty_nonneg (name : List Char) {qty : ℚ} (rate : ℚ) (hq : 0 ≤ qty) :
    0 ≤ (nameCorrect name qty rate).2 := by
  unfold nameCorrect
  rcases h : reSearchT name with _ | ⟨i, ds⟩
  · simpa using hq
  · simp only
    split_ifs
    · exact Nat.cast_nonneg _
    · simpa using hq

/-- C8: every record emitted by a line has non-negative qty, rate and
amount, and its free field is either the distinct absent marker or a
non-negative integer — a consequence of `parse_number` stripping commas
and hyphens before converting. -/
theorem c8_nonneg_invariant :
    ∀ (st : PState) (tokens : List Tok) (r : SalesRecord),
      (lineStep st tokens).2 = some r →
      0 ≤ r.f.qty ∧ 0 ≤ r.f.rate ∧ 0 ≤ r.f.amount ∧
        (r.f.free = none ∨ ∃ n : ℤ, r.f.free = some n ∧ 0 ≤ n) := by
  intro st tokens r h
  unfold lineStep at h
  rcases hcl : classify tokens with _ | _ | _ <;> simp only [hcl] at h
  all_goals try (exact Option.noConfusion h)
  have hblk : ∀ x ∈ (splitRow tokens).1, 0 ≤ x :=
    fun x hx => scanR_nonneg tokens.reverse [] (by intro y hy; cases hy) x hx
  rcases hf : fieldsOf (splitRow tokens).1 with _ | f <;> simp only [hf] at h
  all_goals try (exact Option.noConfusion h)
  have hf4 := fieldsOf_nonneg hblk hf
  have hq1 : 0 ≤ (nameCorrect (rstripSpaceDash (pyStrip
      (List.intercalate [' '] (splitRow tokens).2))) f.qty f.rate).2 :=
    nameCorrect_qty_nonneg _ f.rate hf4.1
  split_ifs at h with hcond
  · simp only [Option.some.injEq] at h
    subst h
    exact ⟨hq1, hf4.2.1, hf4.2.2.1, hf4.2.2.2⟩
  · simp only [Option.some.injEq] at h
    subst h
    exact ⟨hq1, hf4.2.1, hf4.2.2.1, hf4.2.2.2⟩

/-- C8 witness: the invariant applied to a concrete emitted record. -/
theorem c8_witness :
    (0 : ℚ) ≤ (SalesRecord.mk [] [] (String.toList "NAME")
        ⟨10, some 2, mkRat 101 2, 505, 5⟩).f.qty ∧
      (0 : ℚ) ≤ (SalesRecord.mk [] [] (String.toList "NAME")
        ⟨10, some 2, mkRat 101 2, 505, 5⟩).f.rate ∧
      (0 : ℚ) ≤ (SalesRecord.mk [] [] (String.toList "NAME")
        ⟨10, some 2, mkRat 101 2, 505, 5⟩).f.amount ∧
      ((SalesRecord.mk [] [] (String.toList "NAME")
        ⟨10, some 2, mkRat 101 2, 505, 5⟩).f.free = none ∨
        ∃ n : ℤ, (SalesRecord.mk [] [] (String.toList "NAME")
          ⟨10, some 2, mkRat 101 2, 505, 5⟩).f.free = some n ∧ 0 ≤ n) :=
  c8_nonneg_invariant ⟨[], []⟩
    [String.toList "NAME", String.toList "10", String.toList "2",
      String.toList "50.5", String.toList "505", String.toList "5"]
    (SalesRecord.mk [] [] (String.toList "NAME") ⟨10, some 2, mkRat 101 2, 505, 5⟩)
    (by decide)

/-- Comparing the doubled fractional remainder `2 * (num - ⌊q⌋ * den)`
with the denominator is comparing the fractional part with one half
(strictly below). -/
theorem r2_lt_iff (q : ℚ) :
    (2 * (q.num - ⌊q⌋ * (q.den : ℤ)) < (q.den : ℤ)) ↔ q - ⌊q⌋ < 1/2 := by
  have hden : (0:ℚ) < (q.den : ℚ) := by exact_mod_cast q.den_pos
  have hnum : q * (q.den : ℚ) = (q.num : ℚ) := by
    have h := Rat.num_div_den q
    have hne : (q.den : ℚ) ≠ 0 := ne_of_gt hden
    rw [div_eq_iff hne] at h
    linarith [h]
  constructor
  · intro hh
    have hh2 : 2 * ((q.num:ℚ) - (⌊q⌋:ℚ) * (q.den:ℚ)) < (q.den:ℚ) := by exact_mod_cast hh
    nlinarith [hnum, hden, hh2]
  · intro hh
    have hh2 : 2 * ((q.num:ℚ) - (⌊q⌋:ℚ) * (q.den:ℚ)) < (q.den:ℚ) := by
      nlinarith [hnum, hden, hh]
    exact_mod_cast hh2

/-- Comparing the doubled fractional remainder with the denominator is
comparing the fractional part with one half (strictly above). -/
theorem r2_gt_iff (q : ℚ) :
    ((q.den : ℤ) < 2 * (q.num - ⌊q⌋ * (q.den : ℤ))) ↔ 1/2 < q - ⌊q⌋ := by
  have hden : (0:ℚ) < (q.den : ℚ) := by exact_mod_cast q.den_pos
  have hnum : q * (q.den : ℚ) = (q.num : ℚ) := by
    have h := Rat.num_div_den q
    have hne : (q.den : ℚ) ≠ 0 := ne_of_gt hden
    rw [div_eq_iff hne] at h
    linarith [h]
  constructor
  · intro hh
    have hh2 : (q.den:ℚ) < 2 * ((q.num:ℚ) - (⌊q⌋:ℚ) * (q.den:ℚ)) := by exact_mod_cast hh
    nlinarith [hnum, hden, hh2]
  · intro hh
    have hh2 : (q.den:ℚ) < 2 * ((q.num:ℚ) - (⌊q⌋:ℚ) * (q.den:ℚ)) := by
      nlinarith [hnum, hden, hh]
    exact_mod_cast hh2

theorem pyRound_spec (q : ℚ) :
    (q - ⌊q⌋ < 1/2 → pyRound q = ⌊q⌋) ∧
    (1/2 < q - ⌊q⌋ → pyRound q = ⌊q⌋ + 1) ∧
    (q - ⌊q⌋ = 1/2 → pyRound q = (if ⌊q⌋ % 2 = 0 then ⌊q⌋ else ⌊q⌋ + 1)) := by
  refine ⟨?_, ?_, ?_⟩ <;> intro h <;> simp only [pyRound]
  · rw [if_pos ((r2_lt_iff q).mpr h)]
  · rw [if_neg, if_pos ((r2_gt_iff q).mpr h)]
    intro hc
    have := (r2_lt_iff q).mp hc
    linarith
  · rw [if_neg, if_neg]
    · intro hc
      have := (r2_gt_iff q).mp hc
      linarith [h]
    · intro hc
      have := (r2_lt_iff q).mp hc
      linarith [h]

/-- A rounded value is within one half of its argument. -/
theorem pyRound_bounds {q : ℚ} {k : ℤ} (h : pyRound q = k) :
    (k:ℚ) - 1/2 ≤ q ∧ q ≤ (k:ℚ) + 1/2 := by
  have hfl := Int.floor_le q
  have hfu := Int.lt_floor_add_one q
  rcases lt_trichotomy (q - ⌊q⌋) (1/2 : ℚ) with hc | hc | hc
  · have hk : k = ⌊q⌋ := h.symm.trans ((pyRound_spec q).1 hc)
    subst hk
    constructor <;> linarith
  · have hk : k = (if ⌊q⌋ % 2 = 0 then ⌊q⌋ else ⌊q⌋ + 1) :=
      h.symm.trans ((pyRound_spec q).2.2 hc)
    split_ifs at hk <;> subst hk <;> push_cast <;> constructor <;> linarith
  · have hk : k = ⌊q⌋ + 1 := h.symm.trans ((pyRound_spec q).2.1 hc)
    subst hk
    push_cast
    constructor <;> linarith

/-- Rounding to `k` from the upper half-way point forces `k` even. -/
theorem pyRound_half_upper {q : ℚ} {k : ℤ} (hq : q = (k:ℚ) + 1/2) (h : pyRound q = k) :
    k % 2 = 0 := by
  have hfl : ⌊q⌋ = k := by rw [hq, Int.floor_int_add]; norm_num
  have hfr : q - ⌊q⌋ = 1/2 := by rw [hfl, hq]; ring
  have := h.symm.trans ((pyRound_spec q).2.2 hfr)
  rw [hfl] at this
  split_ifs at this with hpar
  · exact hpar
  · omega

/-- Rounding to `k` from the lower half-way point forces `k` even. -/
theorem pyRound_half_lower {q : ℚ} {k : ℤ} (hq : q = (k:ℚ) - 1/2) (h : pyRound q = k) :
    k % 2 = 0 := by
  have hfl : ⌊q⌋ = k - 1 := by
    have hq2 : q = ((k - 1 : ℤ) : ℚ) + 1/2 := by rw [hq]; push_cast; ring
    rw [hq2, Int.floor_int_add]
    norm_num
  have hfr : q - ⌊q⌋ = 1/2 := by rw [hfl, hq]; push_cast; ring
  have := h.symm.trans ((pyRound_spec q).2.2 hfr)
  rw [hfl] at this
  split_ifs at this with hpar <;> omega

/-- Any value strictly inside the half-open band around `k` rounds
to `k`. -/
theorem pyRound_of_bounds {q : ℚ} {k : ℤ} (h1 : (k:ℚ) - 1/2 < q) (h2 : q < (k:ℚ) + 1/2) :
    pyRound q = k := by
  rcases le_or_lt (k:ℚ) q with hs | hs
  · have hfl : ⌊q⌋ = k := by
      rw [Int.floor_eq_iff]
      constructor
      · exact_mod_cast hs
      · linarith
    have hfr : q - ⌊q⌋ < 1/2 := by rw [hfl]; linarith
    rw [(pyRound_spec q).1 hfr, hfl]
  · have hfl : ⌊q⌋ = k - 1 := by
      rw [Int.floor_eq_iff]
      constructor
      · push_cast; linarith
      · push_cast; linarith
    have hfr : 1/2 < q - ⌊q⌋ := by rw [hfl]; push_cast; linarith
    rw [(pyRound_spec q).2.1 hfr, hfl]
    omega

/-- The upper half-way point of an even `k` rounds to `k`. -/
theorem pyRound_half_upper_even {k : ℤ} (hk : k % 2 = 0) : pyRound ((k:ℚ) + 1/2) = k := by
  have hfl : ⌊(k:ℚ) + 1/2⌋ = k := by rw [Int.floor_int_add]; norm_num
  have hfr : ((k:ℚ) + 1/2) - ⌊(k:ℚ) + 1/2⌋ = 1/2 := by rw [hfl]; ring
  rw [(pyRound_spec _).2.2 hfr, hfl, if_pos hk]

/-- The lower half-way point of an even `k` rounds to `k`. -/
theorem pyRound_half_lower_even {k : ℤ} (hk : k % 2 = 0) : pyRound ((k:ℚ) - 1/2) = k := by
  have hq2 : (k:ℚ) - 1/2 = ((k - 1 : ℤ) : ℚ) + 1/2 := by push_cast; ring
  have hfl : ⌊(k:ℚ) - 1/2⌋ = k - 1 := by
    rw [hq2, Int.floor_int_add]
    norm_num
  have hfr : ((k:ℚ) - 1/2) - ⌊(k:ℚ) - 1/2⌋ = 1/2 := by rw [hfl]; push_cast; ring
  rw [(pyRound_spec _).2.2 hfr, hfl, if_neg (by omega)]
  omega

/-- The mean of a nonempty list lies between any common lower and upper
bounds of its members. -/
theorem mean_bounds {l : List ℚ} (hne : l ≠ []) {a b : ℚ}
    (hla : ∀ x ∈ l, a ≤ x) (hlb : ∀ x ∈ l, x ≤ b) :
    a ≤ ratMean l ∧ ratMean l ≤ b := by
  have hn : (0:ℚ) < (l.length : ℚ) := by
    exact_mod_cast List.length_pos.mpr hne
  constructor
  · rw [ratMean, le_div_iff hn]
    have h := List.card_nsmul_le_sum l a hla
    rw [nsmul_eq_mul] at h
    linarith [h]
  · rw [ratMean, div_le_iff hn]
    have h := List.sum_le_card_nsmul l b hlb
    rw [nsmul_eq_mul] at h
    linarith [h]

/-- If one member is strictly below a common upper bound, the sum is
strictly below `length * bound`. -/
theorem sum_lt_of_mem_lt {l : List ℚ} {b : ℚ} (hlb : ∀ x ∈ l, x ≤ b) {x0 : ℚ}
    (hx0 : x0 ∈ l) (hlt : x0 < b) : l.sum < (l.length : ℚ) * b := by
  induction l with
  | nil => cases hx0
  | cons a t ih =>
      have ht : t.sum ≤ (t.length:ℚ) * b := by
        have h := List.sum_le_card_nsmul t b (fun y hy => hlb y (List.mem_cons_of_mem _ hy))
        rw [nsmul_eq_mul] at h
        linarith [h]
      rcases List.mem_cons.mp hx0 with rfl | hx
      · simp only [List.sum_cons, List.length_cons]
        push_cast
        linarith
      · have ha : a ≤ b := hlb a (List.mem_cons_self _ _)
        have h := ih (fun y hy => hlb y (List.mem_cons_of_mem _ hy)) hx
        simp only [List.sum_cons, List.length_cons]
        push_cast
        linarith

/-- A mean attaining a common upper bound forces every member to equal
that bound. -/
theorem eq_of_mean_eq_upper {l : List ℚ} (hne : l ≠ []) {b : ℚ}
    (hlb : ∀ x ∈ l, x ≤ b) (hmean : ratMean l = b) : ∀ x ∈ l, x = b := by
  intro x hx
  by_contra hx2
  have hlt : x < b := lt_of_le_of_ne (hlb x hx) hx2
  have hsum := sum_lt_of_mem_lt hlb hx hlt
  have hn : (0:ℚ) < (l.length : ℚ) := by
    exact_mod_cast List.length_pos.mpr hne
  rw [ratMean, div_eq_iff (ne_of_gt hn)] at hmean
  nlinarith [hmean, hsum]

/-- If one member is strictly above a common lower bound, the sum is
strictly above `length * bound`. -/
theorem lt_sum_of_mem_gt {l : List ℚ} {a : ℚ} (hla : ∀ x ∈ l, a ≤ x) {x0 : ℚ}
    (hx0 : x0 ∈ l) (hgt : a < x0) : (l.length : ℚ) * a < l.sum := by
  induction l with
  | nil => cases hx0
  | cons c t ih =>
      have ht : (t.length:ℚ) * a ≤ t.sum := by
        have h := List.card_nsmul_le_sum t a (fun y hy => hla y (List.mem_cons_of_mem _ hy))
        rw [nsmul_eq_mul] at h
        linarith [h]
      rcases List.mem_cons.mp hx0 with rfl | hx
      · simp only [List.sum_cons, List.length_cons]
        push_cast
        linarith
      · have hc : a ≤ c := hla c (List.mem_cons_self _ _)
        have h := ih (fun y hy => hla y (List.mem_cons_of_mem _ hy)) hx
        simp only [List.sum_cons, List.length_cons]
        push_cast
        linarith

/-- A mean attaining a common lower bound forces every member to equal
that bound. -/
theorem eq_of_mean_eq_lower {l : List ℚ} (hne : l ≠ []) {a : ℚ}
    (hla : ∀ x ∈ l, a ≤ x) (hmean : ratMean l = a) : ∀ x ∈ l, x = a := by
  intro x hx
  by_contra hx2
  have hgt : a < x := lt_of_le_of_ne (hla x hx) (Ne.symm hx2)
  have hsum := lt_sum_of_mem_gt hla hx hgt
  have hn : (0:ℚ) < (l.length : ℚ) := by
    exact_mod_cast List.length_pos.mpr hne
  rw [ratMean, div_eq_iff (ne_of_gt hn)] at hmean
  nlinarith [hmean, hsum]

/-- If every member of a nonempty group of ordinates rounds (after
division by 5) to `k`, so does the group's mean. -/
theorem pyRound_mean {g : List ℚ} {k : ℤ} (hne : g ≠ [])
    (hall : ∀ t ∈ g, pyRound (t/5) = k) : pyRound (ratMean g / 5) = k := by
  have hb : ∀ t ∈ g, t ≤ 5*(k:ℚ) + 5/2 := by
    intro t ht
    have hbd := (pyRound_bounds (hall t ht)).2
    rw [div_le_iff (by norm_num : (0:ℚ) < 5)] at hbd
    linarith
  have ha : ∀ t ∈ g, 5*(k:ℚ) - 5/2 ≤ t := by
    intro t ht
    have hbd := (pyRound_bounds (hall t ht)).1
    rw [le_div_iff (by norm_num : (0:ℚ) < 5)] at hbd
    linarith
  have hm := mean_bounds hne ha hb
  have hm1 : (k:ℚ) - 1/2 ≤ ratMean g / 5 := by
    rw [le_div_iff (by norm_num : (0:ℚ) < 5)]
    linarith [hm.1]
  have hm2 : ratMean g / 5 ≤ (k:ℚ) + 1/2 := by
    rw [div_le_iff (by norm_num : (0:ℚ) < 5)]
    linarith [hm.2]
  rcases eq_or_lt_of_le hm2 with he2 | hl2
  · have hmean : ratMean g = 5*(k:ℚ) + 5/2 := by
      rw [div_eq_iff (by norm_num : (5:ℚ) ≠ 0)] at he2
      linarith [he2]
    obtain ⟨t0, ht0⟩ := List.exists_mem_of_ne_nil g hne
    have ht0eq : t0 = 5*(k:ℚ) + 5/2 := eq_of_mean_eq_upper hne hb hmean t0 ht0
    have ht05 : t0/5 = (k:ℚ) + 1/2 := by rw [ht0eq]; ring
    have hpar := pyRound_half_upper ht05 (hall t0 ht0)
    rw [he2]
    exact pyRound_half_upper_even hpar
  · rcases eq_or_lt_of_le hm1 with he1 | hl1
    · have he1s : ratMean g / 5 = (k:ℚ) - 1/2 := he1.symm
      have hmean : ratMean g = 5*(k:ℚ) - 5/2 := by
        rw [div_eq_iff (by norm_num : (5:ℚ) ≠ 0)] at he1s
        linarith [he1s]
      obtain ⟨t0, ht0⟩ := List.exists_mem_of_ne_nil g hne
      have ht0eq : t0 = 5*(k:ℚ) - 5/2 := eq_of_mean_eq_lower hne ha hmean t0 ht0
      have ht05 : t0/5 = (k:ℚ) - 1/2 := by rw [ht0eq]; ring
      have hpar := pyRound_half_lower ht05 (hall t0 ht0)
      rw [he1s]
      exact pyRound_half_lower_even hpar
    · exact pyRound_of_bounds hl1 hl2

/-- C9: re-bucketing is idempotent.  For every token ordinate `t` on a
page, the bucket of the mean of `t`'s visual line (all ordinates whose
bucket key equals `t`'s) is again `t`'s bucket key, so re-running the
vertical bucketing on the grouped lines, each placed at its mean
ordinate, reproduces exactly the original partition of tokens into
lines. -/
theorem c9_rebucket_idempotent :
    ∀ (ts : List ℚ) (t : ℚ), t ∈ ts →
      bucketKey (ratMean (ts.filter (fun u => decide (bucketKey u = bucketKey t)))) =
        bucketKey t := by
  intro ts t ht
  have htg : t ∈ ts.filter (fun u => decide (bucketKey u = bucketKey t)) :=
    List.mem_filter.mpr ⟨ht, by simp⟩
  have hne : ts.filter (fun u => decide (bucketKey u = bucketKey t)) ≠ [] :=
    List.ne_nil_of_mem htg
  have hall : ∀ u ∈ ts.filter (fun u => decide (bucketKey u = bucketKey t)),
      pyRound (u/5) = pyRound (t/5) := by
    intro u hu
    have hdec := List.of_mem_filter hu
    have heq : bucketKey u = bucketKey t := of_decide_eq_true hdec
    have h5 : pyRound (u/5) * 5 = pyRound (t/5) * 5 := by
      rw [← bucketKey_div, ← bucketKey_div, heq]
    exact mul_right_cancel₀ (by norm_num) h5
  rw [bucketKey_div, pyRound_mean hne hall, ← bucketKey_div]

/-- C9 witness: the idempotence statement applied to a concrete page. -/
theorem c9_witness :
    bucketKey (ratMean (([3, 4] : List ℚ).filter
        (fun u => decide (bucketKey u = bucketKey 3)))) = bucketKey 3 :=
  c9_rebucket_idempotent [3, 4] 3 (by decide)
